import Mathlib

/-!
Verification of `brain_factor_distributed.py`, the distributed factoring driver.

The driver factors an integer `n_val` by covering the candidate interval up to
roughly `sqrt n_val` with chunks of `3 ^ 4 = 81` states, batching at most 1000
chunks per run, synthesising a binary program for an external engine, running
the engine, parsing its measurement lines, and verifying candidates in exact
integer arithmetic.

Embedding conventions:
* Python arbitrary-precision integers are modelled by `Nat` (the modulus and
  all index arithmetic is non-negative) and by `Int` where the source parses
  text with `int(...)`, which can yield negative values.
* `int(math.sqrt(n))` is modelled by the exact integer square root `Nat.sqrt`
  and `math.ceil(a / b)` by exact ceiling division `(a + b - 1) / b`; the
  source goes through IEEE doubles, which agree with the exact values on the
  moderate inputs the driver targets.
* `struct.pack` raising `struct.error` on a value outside `[0, 2 ^ 64)` is
  modelled by an `Option` result.
* Python `%` on integers is `Int.fmod` (sign of the divisor) and `//` is
  `Int.fdiv` (floor division).
* The external engine run is modelled by a function `engineOut` from a batch
  start index to `Option (List String)`: `none` models a timeout
  (`subprocess.TimeoutExpired`), `some lines` the captured standard output.
* File-system side effects are modelled by an explicit `Effect` trace.
-/

namespace BrainFactor

/-- Opcode `OP_INIT` from the source. -/
def OP_INIT : Nat := 0x01

/-- Opcode `OP_MEASURE` from the source. -/
def OP_MEASURE : Nat := 0x07

/-- Opcode `OP_ORACLE` from the source. -/
def OP_ORACLE : Nat := 0x0B

/-- Opcode `OP_IM_WEIGHTS` from the source. -/
def OP_IM_WEIGHTS : Nat := 0x1A

/-- Opcode `OP_STORE_LO` from the source. -/
def OP_STORE_LO : Nat := 0x17

/-- Opcode `OP_STORE_HI` from the source. -/
def OP_STORE_HI : Nat := 0x18

/-- Opcode `OP_HALT` from the source. -/
def OP_HALT : Nat := 0xFF

/-- Oracle id `ID_NEURAL_INIT` from the source. -/
def ID_NEURAL_INIT : Nat := 0x09

/-- Oracle id `ID_NEURAL_DIFF` from the source. -/
def ID_NEURAL_DIFF : Nat := 0x0B

/-- Oracle id `ID_DIVISOR` from the source. -/
def ID_DIVISOR : Nat := 0x0C

/-- The 64-bit word assembled by `make_instr`:
`instr = (op2 << 48) | (op1 << 32) | (target << 16) | opcode`.
No field is masked before being shifted into place. -/
def instrWord (opcode target op1 op2 : Nat) : Nat :=
  (op2 <<< 48) ||| (op1 <<< 32) ||| (target <<< 16) ||| opcode

/-- The eight little-endian bytes of a 64-bit word, as produced by
`struct.pack` with format `<Q`. -/
def le8 (w : Nat) : List Nat :=
  [w % 256, w / 2 ^ 8 % 256, w / 2 ^ 16 % 256, w / 2 ^ 24 % 256,
   w / 2 ^ 32 % 256, w / 2 ^ 40 % 256, w / 2 ^ 48 % 256, w / 2 ^ 56 % 256]

/-- Embedding of `make_instr(opcode, target, op1, op2)`.  The word is packed
with `struct.pack` format `<Q`, which raises `struct.error` (modelled by
`none`) when the assembled word does not fit in 64 bits. -/
def make_instr (opcode target op1 op2 : Nat) : Option (List Nat) :=
  if instrWord opcode target op1 op2 < 2 ^ 64 then
    some (le8 (instrWord opcode target op1 op2))
  else
    none

/-- The `i`-th 16-bit field of a word (field 0 is the least significant). -/
def instrField (i w : Nat) : Nat := w / 2 ^ (16 * i) % 2 ^ 16

/-- One instruction of the synthesised program, recorded as the four
arguments the source passes to `make_instr`. -/
structure Instr where
  opcode : Nat
  target : Nat
  op1 : Nat
  op2 : Nat
deriving DecidableEq

/-- Chunk depth: the source fixes `chunk_depth = 4` qutrits per chunk. -/
def chunk_depth : Nat := 4

/-- Chunk state count: `chunk_states = 3 ** chunk_depth`, i.e. 81. -/
def chunk_states : Nat := 3 ^ chunk_depth

/-- Batch size: the source fixes `BATCH_SIZE = 1000`. -/
def BATCH_SIZE : Nat := 1000

/-- Grover iteration count: the source fixes `iters = 5`. -/
def iters : Nat := 5

/-- Search limit under the exact-square-root idealization of
`limit = int(math.sqrt(n_val)) + 1`.  The source computes the square root
through IEEE doubles, which agree with `Nat.sqrt` on moderate inputs but can
undershoot it for huge ones and overflow outright near `2 ^ 1024`; theorems
that must not depend on the float's exact value take the computed limit as a
parameter (`num_chunks_of`, `batchStartsOf`, `solve_distributed`) instead of
using this idealization. -/
def limit (n_val : Nat) : Nat := Nat.sqrt n_val + 1

/-- Chunk count under the idealized `limit`:
`num_chunks = math.ceil(limit / chunk_states)`, with the float ceiling
modelled by exact ceiling division (exact for the chunk counts the driver
reaches; see `num_chunks_of` for the limit-parametric version). -/
def num_chunks (n_val : Nat) : Nat :=
  (limit n_val + (chunk_states - 1)) / chunk_states

/-- Chunk count as a function of whatever value `lim` the driver's
floating-point computation `int(math.sqrt(n_val)) + 1` actually produced:
`num_chunks = math.ceil(lim / chunk_states)`. -/
def num_chunks_of (lim : Nat) : Nat :=
  (lim + (chunk_states - 1)) / chunk_states

/-- Batch start indices: `range(0, num_chunks, BATCH_SIZE)`, under the
idealized `limit`. -/
def batchStarts (n_val : Nat) : List Nat :=
  List.range' 0 ((num_chunks n_val + (BATCH_SIZE - 1)) / BATCH_SIZE) BATCH_SIZE

/-- Batch start indices for a run whose float-computed limit is `lim`. -/
def batchStartsOf (lim : Nat) : List Nat :=
  List.range' 0 ((num_chunks_of lim + (BATCH_SIZE - 1)) / BATCH_SIZE) BATCH_SIZE

/-- Active chunk count of a batch:
`batch_end = min(batch_start + BATCH_SIZE, num_chunks)` and
`active_chunks = batch_end - batch_start`. -/
def active_chunks (n_val batch_start : Nat) : Nat :=
  min (batch_start + BATCH_SIZE) (num_chunks n_val) - batch_start

/-- The two store instructions that inject the modulus, from the source:
`make_instr(OP_STORE_LO, target=2, op1=n_val & 0xFFFF, op2=(n_val >> 16) & 0xFFFF)`
and
`make_instr(OP_STORE_HI, target=2, op1=(n_val >> 32) & 0xFFFF, op2=(n_val >> 48) & 0xFFFF)`. -/
def modulusStoreInstrs (n_val : Nat) : List Instr :=
  [⟨OP_STORE_LO, 2, n_val &&& 0xFFFF, (n_val >>> 16) &&& 0xFFFF⟩,
   ⟨OP_STORE_HI, 2, (n_val >>> 32) &&& 0xFFFF, (n_val >>> 48) &&& 0xFFFF⟩]

/-- The two store instructions that write a chunk offset into slot 1. -/
def offsetStoreInstrs (offset : Nat) : List Instr :=
  [⟨OP_STORE_LO, 1, offset &&& 0xFFFF, (offset >>> 16) &&& 0xFFFF⟩,
   ⟨OP_STORE_HI, 1, (offset >>> 32) &&& 0xFFFF, (offset >>> 48) &&& 0xFFFF⟩]

/-- The instruction sequence one batch of `solve_distributed` emits, in
source order: the weight load, one `OP_INIT` per active chunk, the modulus
stores, the neural-init loop, `iters` rounds of offset store plus divisor and
diffusion oracles per chunk, one `OP_MEASURE` per chunk, and `OP_HALT`. -/
def buildProgram (n_val batch_start ac : Nat) : List Instr :=
  [⟨OP_IM_WEIGHTS, 0, 0, 0⟩]
    ++ (List.range ac).map (fun c => ⟨OP_INIT, c, chunk_depth, 0⟩)
    ++ modulusStoreInstrs n_val
    ++ (List.range ac).flatMap (fun c =>
        offsetStoreInstrs ((batch_start + c) * chunk_states)
          ++ [⟨OP_ORACLE, c, ID_NEURAL_INIT, 0⟩])
    ++ (List.range iters).flatMap (fun _ =>
        (List.range ac).flatMap (fun c =>
          offsetStoreInstrs ((batch_start + c) * chunk_states)
            ++ [⟨OP_ORACLE, c, ID_DIVISOR, 0⟩, ⟨OP_ORACLE, c, ID_NEURAL_DIFF, 0⟩]))
    ++ (List.range ac).map (fun c => ⟨OP_MEASURE, c, 0, 0⟩)
    ++ [⟨OP_HALT, 0, 0, 0⟩]

/-- Python substring test `pat in line`, expressed through `splitOn`: the
pattern occurs in the line exactly when splitting on it yields more than one
part. -/
def occursIn (pat line : String) : Bool :=
  (line.splitOn pat).length != 1

/-- Embedding of the measurement-line parsing in the output loop.  A line is
considered only when it contains `[MEAS]`; then
`val_local = int(line.split("=>")[1].strip())` and
`c_idx = int(line.split("chunk")[1].split("=>")[0].strip())`.  Every raised
exception (missing index, unparsable integer) is swallowed by the source's
bare `except`, modelled by `none`. -/
def parseMeasLine (line : String) : Option (Int × Int) :=
  if occursIn "[MEAS]" line then
    match (line.splitOn "=>")[1]? with
    | none => none
    | some p1 =>
      match p1.trim.toInt? with
      | none => none
      | some val_local =>
        match (line.splitOn "chunk")[1]? with
        | none => none
        | some afterChunk =>
          match (((afterChunk.splitOn "=>").getD 0 "").trim).toInt? with
          | none => none
          | some c_idx => some (val_local, c_idx)
  else none

/-- Global offset of a chunk:
`global_offset = (batch_start + c_idx) * chunk_states`. -/
def global_offset (batch_start : Nat) (c_idx : Int) : Int :=
  ((batch_start : Int) + c_idx) * (chunk_states : Int)

/-- Recombined candidate: `candidate = val_local + global_offset`. -/
def candidateOf (batch_start : Nat) (c_idx val_local : Int) : Int :=
  val_local + global_offset batch_start c_idx

/-- Embedding of the verification condition on line 208 of the source:
`candidate > 1 and candidate < n_val and (n_val % candidate == 0)`.
Python `%` is floor-signed, hence `Int.fmod`. -/
def isFactor (n_val candidate : Int) : Bool :=
  decide (1 < candidate) && decide (candidate < n_val) && (Int.fmod n_val candidate == 0)

/-- Processing of one output line: parse it, recombine the candidate, verify
it, and on success report the pair `(candidate, n_val // candidate)` printed
by the source; on any parse failure or failed verification the loop simply
moves on (`none`). -/
def processLine (n_val batch_start : Nat) (line : String) : Option (Int × Int) :=
  match parseMeasLine line with
  | none => none
  | some (val_local, c_idx) =>
    let candidate := candidateOf batch_start c_idx val_local
    if isFactor (n_val : Int) candidate then
      some (candidate, Int.fdiv (n_val : Int) candidate)
    else
      none

/-- Scan of a batch's output lines in order; the first verified candidate
stops the scan (the source executes `return` inside the loop). -/
def scanLines (n_val batch_start : Nat) : List String → Option (Int × Int)
  | [] => none
  | line :: rest =>
    match processLine n_val batch_start line with
    | some r => some r
    | none => scanLines n_val batch_start rest

/-- The user-visible outcome of a run: the printed `[SUCCESS]` factor pair,
or the printed completion message reporting that no factor was found. -/
inductive Outcome where
  | Found (factor cofactor : Int)
  | NotFound
deriving DecidableEq

/-- The batch loop of `solve_distributed`: batches run in order; a timed-out
batch (`engineOut bs = none`) is skipped with `continue`; the first verified
candidate returns immediately; running out of batches yields `NotFound`. -/
def runBatches (n_val : Nat) (engineOut : Nat → Option (List String)) :
    List Nat → Outcome
  | [] => Outcome.NotFound
  | bs :: rest =>
    match engineOut bs with
    | none => runBatches n_val engineOut rest
    | some lines =>
      match scanLines n_val bs lines with
      | some (f, cof) => Outcome.Found f cof
      | none => runBatches n_val engineOut rest

/-- Smallest integer whose conversion to an IEEE double overflows: integers
at or above `2 ^ 1024 - 2 ^ 970` round (ties to even) past the largest
finite double `2 ^ 1024 - 2 ^ 971`, so `math.sqrt(n_val)` on line 28 raises
`OverflowError` for them before any batch runs. -/
def FLOAT_OVERFLOW_THRESHOLD : Nat := 2 ^ 1024 - 2 ^ 970

/-- Result of one driver run, including the error path of the front end. -/
inductive RunResult where
  | ok (out : Outcome)
  | overflowError
deriving DecidableEq

/-- Embedding of `solve_distributed(n_val)`, including the floating-point
front end: for a modulus too large to convert to a double, line 28 raises
`OverflowError` before any batch runs; otherwise the run is the batch loop
over the batch starts derived from the float-computed limit `lim`, which is
taken as a parameter because its exact value is produced by the platform's
double-precision `math.sqrt` and can differ from the exact integer square
root. -/
def solve_distributed (n_val lim : Nat)
    (engineOut : Nat → Option (List String)) : RunResult :=
  if FLOAT_OVERFLOW_THRESHOLD ≤ n_val then
    RunResult.overflowError
  else
    RunResult.ok (runBatches n_val engineOut (batchStartsOf lim))

/-- File-system and process side effects performed by the driver. -/
inductive Effect where
  | writeFile (name : String) (program : List Instr)
  | runEngine (args : List String)
  | removeFile (name : String)
deriving DecidableEq

/-- Whether an effect writes a file. -/
def Effect.isWrite : Effect → Bool
  | .writeFile _ _ => true
  | _ => false

/-- Whether an effect removes a file. -/
def Effect.isRemove : Effect → Bool
  | .removeFile _ => true
  | _ => false

/-- The file name an effect touches, when it touches one. -/
def Effect.fileName : Effect → Option String
  | .writeFile nm _ => some nm
  | .removeFile nm => some nm
  | .runEngine _ => none

/-- The side effects of one batch: the source writes the program to the
fixed path `"distributed.qbin"` and then launches
`subprocess.run(["./qutrit_engine", qbin_file], ...)`. -/
def batchEffects (n_val batch_start : Nat) : List Effect :=
  [Effect.writeFile "distributed.qbin"
      (buildProgram n_val batch_start (active_chunks n_val batch_start)),
   Effect.runEngine ["./qutrit_engine", "distributed.qbin"]]

/-- The effect trace of the batch loop: each visited batch contributes its
write and launch; an early `return` on success ends the trace; no exit path
performs a file removal. -/
def runTrace (n_val : Nat) (engineOut : Nat → Option (List String)) :
    List Nat → List Effect
  | [] => []
  | bs :: rest =>
    batchEffects n_val bs ++
      match engineOut bs with
      | none => runTrace n_val engineOut rest
      | some lines =>
        match scanLines n_val bs lines with
        | some _ => []
        | none => runTrace n_val engineOut rest

/-- The full effect trace of `solve_distributed`. -/
def solveEffects (n_val : Nat) (engineOut : Nat → Option (List String)) :
    List Effect :=
  runTrace n_val engineOut (batchStarts n_val)

/-- Whether an effect trace contains a file write. -/
def hasWrite (t : List Effect) : Bool := t.any Effect.isWrite

/-- Whether an effect trace contains a file removal. -/
def hasRemove (t : List Effect) : Bool := t.any Effect.isRemove

/-- Engine stub that reports empty output for every batch: the engine
finishes with no measurement lines. -/
def eoEmpty : Nat → Option (List String) := fun _ => some []

/-- Engine stub that times out on every batch. -/
def eoTimeout : Nat → Option (List String) := fun _ => none

/-- Value reconstructed from the 16-bit fields actually stored by the two
modulus store instructions: each instruction contributes
`op1 + op2 * 2 ^ 16`, and the two contributions are concatenated as the low
and high 32-bit halves. -/
def storedModulusValue (n_val : Nat) : Nat :=
  ((modulusStoreInstrs n_val).map (fun i => i.op1 + i.op2 * 2 ^ 16)).foldr
    (fun x acc => x + acc * 2 ^ 32) 0

end BrainFactor

namespace BrainFactor

/-- Masking with `0xFFFF` is reduction modulo `2 ^ 16`. -/
theorem and_mask16 (x : Nat) : x &&& 0xFFFF = x % 2 ^ 16 := by
  simpa using Nat.and_pow_two_sub_one_eq_mod x 16

/-- Right shift is division by a power of two. -/
theorem shiftRight_div_pow (x k : Nat) : x >>> k = x / 2 ^ k :=
  Nat.shiftRight_eq_div_pow x k

/-- Bitwise or of a shifted value with a value below the shift amount is
plain addition. -/
theorem shiftLeft_lor_eq_add (a b n : Nat) (h : b < 2 ^ n) :
    a <<< n ||| b = 2 ^ n * a + b := by
  apply Nat.eq_of_testBit_eq
  intro i
  rw [Nat.testBit_lor, Nat.testBit_shiftLeft, Nat.testBit_mul_pow_two_add a h i]
  by_cases hi : i < n
  · have hge : ¬ (i ≥ n) := by omega
    simp [hi, hge]
  · have hge : i ≥ n := by omega
    have hb : b.testBit i = false := by
      apply Nat.testBit_lt_two_pow
      calc b < 2 ^ n := h
        _ ≤ 2 ^ i := Nat.pow_le_pow_right (by norm_num) hge
    simp [hi, hge, hb]

/-- For in-range fields the assembled word is the weighted sum of the
fields. -/
theorem instrWord_eq (o t p q : Nat) (ho : o < 2 ^ 16) (ht : t < 2 ^ 16)
    (hp : p < 2 ^ 16) (hq : q < 2 ^ 16) :
    instrWord o t p q = q * 2 ^ 48 + p * 2 ^ 32 + t * 2 ^ 16 + o := by
  unfold instrWord
  rw [Nat.lor_assoc, Nat.lor_assoc]
  rw [shiftLeft_lor_eq_add t o 16 (by omega)]
  rw [shiftLeft_lor_eq_add p (2 ^ 16 * t + o) 32 (by omega)]
  rw [shiftLeft_lor_eq_add q (2 ^ 32 * p + (2 ^ 16 * t + o)) 48 (by omega)]
  ring

/-- Claim C3 counterexample: `make_instr` is not total and does not mask.
With `op2 = 2 ^ 16` the packed word overflows 64 bits and `struct.pack`
raises, and with `opcode = 2 ^ 16` the out-of-range opcode bleeds into the
neighbouring target field: field 1 of the word is 1 even though the target
argument was 0. -/
theorem make_instr_unmasked_cex :
    make_instr 0 0 0 65536 = none ∧
      instrField 1 (instrWord 65536 0 0 0) ≠ 0 % 2 ^ 16 := by
  decide

/-- Claim C3 (amended): `make_instr` applies no masking, so totality and
field isolation only hold for arguments already inside their declared 16-bit
widths; for such arguments encoding completes and every 16-bit field of the
produced word equals the corresponding argument. -/
theorem make_instr_in_range_fields (o t p q : Nat)
    (ho : o < 2 ^ 16) (ht : t < 2 ^ 16) (hp : p < 2 ^ 16) (hq : q < 2 ^ 16) :
    make_instr o t p q = some (le8 (instrWord o t p q)) ∧
      instrField 0 (instrWord o t p q) = o ∧
      instrField 1 (instrWord o t p q) = t ∧
      instrField 2 (instrWord o t p q) = p ∧
      instrField 3 (instrWord o t p q) = q := by
  have hw := instrWord_eq o t p q ho ht hp hq
  refine ⟨?_, ?_, ?_, ?_, ?_⟩
  · unfold make_instr
    rw [if_pos (by omega)]
  · unfold instrField
    rw [hw]
    norm_num
    omega
  · unfold instrField
    rw [hw]
    norm_num
    omega
  · unfold instrField
    rw [hw]
    norm_num
    omega
  · unfold instrField
    rw [hw]
    norm_num
    omega

/-- Witness for the amended claim C3 at concrete in-range arguments. -/
theorem make_instr_in_range_fields_witness :
    make_instr 2 7 9 11 = some (le8 (instrWord 2 7 9 11)) ∧
      instrField 0 (instrWord 2 7 9 11) = 2 ∧
      instrField 1 (instrWord 2 7 9 11) = 7 ∧
      instrField 2 (instrWord 2 7 9 11) = 9 ∧
      instrField 3 (instrWord 2 7 9 11) = 11 :=
  make_instr_in_range_fields 2 7 9 11 (by norm_num) (by norm_num) (by norm_num)
    (by norm_num)

/-- Claim C4: for fields strictly below `2 ^ 16`, `make_instr` returns the
8-byte little-endian encoding of
`(op2 << 48) | (op1 << 32) | (target << 16) | opcode`, the canonical layout
`opcode:16 | target:16 | op1:16 | op2:16`; in particular
`make_instr OP_INIT 5 3 0` is the byte literal `01 00 05 00 03 00 00 00`. -/
theorem make_instr_canonical :
    (∀ o t p q : Nat, o < 2 ^ 16 → t < 2 ^ 16 → p < 2 ^ 16 → q < 2 ^ 16 →
        make_instr o t p q = some (le8 (q * 2 ^ 48 + p * 2 ^ 32 + t * 2 ^ 16 + o)))
      ∧ make_instr OP_INIT 5 3 0 =
          some [0x01, 0x00, 0x05, 0x00, 0x03, 0x00, 0x00, 0x00] := by
  constructor
  · intro o t p q ho ht hp hq
    have hw := instrWord_eq o t p q ho ht hp hq
    unfold make_instr
    rw [hw, if_pos (by omega)]
  · decide

/-- Witness for claim C4 at concrete in-range arguments. -/
theorem make_instr_canonical_witness :
    make_instr 4 5 6 7 =
      some (le8 (7 * 2 ^ 48 + 6 * 2 ^ 32 + 5 * 2 ^ 16 + 4)) :=
  make_instr_canonical.1 4 5 6 7 (by norm_num) (by norm_num) (by norm_num)
    (by norm_num)

/-- Claim C5: the candidate recombined from a parsed measurement line with
local value `v` and local chunk index `c`, in a batch starting at `B`, is
exactly `v + (B + c) * 81` in exact integer arithmetic. -/
theorem candidate_recombination (B : Nat) (c v : Int) :
    candidateOf B c v = v + ((B : Int) + c) * 81 := by
  unfold candidateOf global_offset chunk_states chunk_depth
  norm_num

/-- Claim C6: a candidate is accepted exactly when `1 < candidate < N` and
`N mod candidate = 0`, and the five concrete checks from the spec hold. -/
theorem isFactor_spec :
    (∀ n c : Int, isFactor n c = true ↔ 1 < c ∧ c < n ∧ n % c = 0)
      ∧ isFactor 143 11 = true ∧ isFactor 143 13 = true
      ∧ isFactor 143 12 = false ∧ isFactor 21 1 = false
      ∧ isFactor 21 3 = true := by
  refine ⟨?_, by decide, by decide, by decide, by decide, by decide⟩
  intro n c
  unfold isFactor
  simp only [Bool.and_eq_true, decide_eq_true_eq, beq_iff_eq]
  constructor
  · rintro ⟨⟨h1, h2⟩, h3⟩
    have hmod := Int.fmod_eq_emod n (b := c) (by omega)
    exact ⟨h1, h2, by rw [← hmod]; exact h3⟩
  · rintro ⟨h1, h2, h3⟩
    have hmod := Int.fmod_eq_emod n (b := c) (by omega)
    exact ⟨⟨h1, h2⟩, by rw [hmod]; exact h3⟩

/-- Claim C9 counterexample: the builder stores only the low four 16-bit
limbs of the modulus.  For `N = 2 ^ 64` every stored field is zero, so the
concatenation of the stored fields does not reconstruct `N`. -/
theorem modulus_truncated_cex :
    storedModulusValue (2 ^ 64) = 0 ∧ (2 ^ 64 : Nat) ≠ 0 := by
  decide

/-- Claim C9 (amended): the concatenation of the 16-bit fields stored by the
modulus store instructions reconstructs `N mod 2 ^ 64`, hence reconstructs
`N` exactly if and only if `N < 2 ^ 64`; higher limbs are silently
dropped. -/
theorem stored_modulus_mod64 (n : Nat) :
    storedModulusValue n = n % 2 ^ 64 ∧
      (storedModulusValue n = n ↔ n < 2 ^ 64) := by
  have h : storedModulusValue n =
      n % 2 ^ 16 + n / 2 ^ 16 % 2 ^ 16 * 2 ^ 16 +
        (n / 2 ^ 32 % 2 ^ 16 + n / 2 ^ 48 % 2 ^ 16 * 2 ^ 16) * 2 ^ 32 := by
    simp [storedModulusValue, modulusStoreInstrs, and_mask16, shiftRight_div_pow]
  constructor
  · rw [h]
    omega
  · rw [h]
    omega

end BrainFactor

namespace BrainFactor

/-- Every chunk-addressed instruction (`OP_INIT`, `OP_ORACLE`, `OP_MEASURE`)
emitted by the batch program builder targets a chunk index strictly below the
active chunk count. -/
theorem buildProgram_target_lt (n bs ac : Nat) :
    ∀ i ∈ buildProgram n bs ac,
      i.opcode = OP_INIT ∨ i.opcode = OP_ORACLE ∨ i.opcode = OP_MEASURE →
        i.target < ac := by
  intro i hi hop
  unfold buildProgram modulusStoreInstrs offsetStoreInstrs at hi
  simp only [List.mem_append, List.mem_map, List.mem_flatMap, List.mem_range,
    List.mem_cons, List.not_mem_nil, or_false] at hi
  rcases hi with ((((((rfl | ⟨c, hc, rfl⟩) | (rfl | rfl)) |
      ⟨c, hc, (rfl | rfl) | rfl⟩) | ⟨k, hk, c, hc, (rfl | rfl) | (rfl | rfl)⟩) |
      ⟨c, hc, rfl⟩) | rfl) <;>
    first
      | exact hc
      | (rcases hop with h | h | h <;>
          simp only [OP_IM_WEIGHTS, OP_INIT, OP_ORACLE, OP_MEASURE,
            OP_STORE_LO, OP_STORE_HI, OP_HALT] at h <;> omega)

/-- Claim C10: every batch of `solve_distributed` activates between 1 and
`BATCH_SIZE = 1000` chunks, and every chunk-addressed instruction in the
synthesised program (`OP_INIT`, `OP_ORACLE`, `OP_MEASURE`) carries a target
strictly below 1000, which is strictly below the engine's 1024-chunk
ceiling. -/
theorem batch_chunk_bounds (n : Nat) :
    ∀ bs ∈ batchStarts n,
      1 ≤ active_chunks n bs ∧ active_chunks n bs ≤ BATCH_SIZE ∧
        ∀ i ∈ buildProgram n bs (active_chunks n bs),
          i.opcode = OP_INIT ∨ i.opcode = OP_ORACLE ∨ i.opcode = OP_MEASURE →
            i.target < BATCH_SIZE ∧ i.target < 1024 := by
  intro bs hbs
  have hm : 0 < num_chunks n := by
    unfold num_chunks limit chunk_states chunk_depth
    norm_num
    omega
  rw [batchStarts, List.mem_range'] at hbs
  obtain ⟨j, hj, rfl⟩ := hbs
  have hbs_lt : 0 + BATCH_SIZE * j < num_chunks n := by
    unfold BATCH_SIZE at hj ⊢
    omega
  have hac_le : active_chunks n (0 + BATCH_SIZE * j) ≤ BATCH_SIZE := by
    unfold active_chunks
    omega
  refine ⟨?_, hac_le, ?_⟩
  · unfold active_chunks BATCH_SIZE at *
    omega
  · intro i hi hop
    have ht := buildProgram_target_lt n (0 + BATCH_SIZE * j)
      (active_chunks n (0 + BATCH_SIZE * j)) i hi hop
    unfold BATCH_SIZE at *
    omega

/-- Witness for claim C10 at `N = 0`, whose single batch starts at 0. -/
theorem batch_chunk_bounds_witness :
    1 ≤ active_chunks 0 0 ∧ active_chunks 0 0 ≤ BATCH_SIZE ∧
      ∀ i ∈ buildProgram 0 0 (active_chunks 0 0),
        i.opcode = OP_INIT ∨ i.opcode = OP_ORACLE ∨ i.opcode = OP_MEASURE →
          i.target < BATCH_SIZE ∧ i.target < 1024 :=
  batch_chunk_bounds 0 0 (by decide)

end BrainFactor

namespace BrainFactor

/-- The batch output scan reports nothing exactly when no line of the batch
yields a verified candidate. -/
theorem scanLines_eq_none_iff (n bs : Nat) (ls : List String) :
    scanLines n bs ls = none ↔ ∀ l ∈ ls, processLine n bs l = none := by
  induction ls with
  | nil => simp [scanLines]
  | cons l rest ih =>
    simp only [scanLines]
    cases h : processLine n bs l with
    | some r =>
      simp only [h]
      constructor
      · intro hc
        cases hc
      · intro hall
        have hl := hall l (List.mem_cons_self l rest)
        rw [hl] at h
        cases h
    | none =>
      simp only [h]
      rw [ih]
      constructor
      · intro hall l' hl'
        rcases List.mem_cons.1 hl' with rfl | hl'
        · exact h
        · exact hall l' hl'
      · intro hall l' hl'
        exact hall l' (List.mem_cons_of_mem _ hl')

/-- A successful batch scan comes from some line of the batch. -/
theorem scanLines_eq_some_mem (n bs : Nat) (ls : List String) (r : Int × Int)
    (h : scanLines n bs ls = some r) :
    ∃ l ∈ ls, processLine n bs l = some r := by
  induction ls with
  | nil => cases h
  | cons l rest ih =>
    simp only [scanLines] at h
    cases hp : processLine n bs l with
    | some r' =>
      simp only [hp] at h
      exact ⟨l, List.mem_cons_self l rest, by rw [hp, h]⟩
    | none =>
      simp only [hp] at h
      obtain ⟨l', hl', hpl⟩ := ih h
      exact ⟨l', List.mem_cons_of_mem _ hl', hpl⟩

/-- A line that yields a reported pair yields a verified factor together
with the floor quotient the source prints. -/
theorem processLine_found (n bs : Nat) (line : String) (f cof : Int)
    (h : processLine n bs line = some (f, cof)) :
    isFactor (n : Int) f = true ∧ cof = Int.fdiv (n : Int) f := by
  unfold processLine at h
  cases hp : parseMeasLine line with
  | none =>
    rw [hp] at h
    cases h
  | some p =>
    obtain ⟨v, c⟩ := p
    rw [hp] at h
    simp only at h
    by_cases hf : isFactor (n : Int) (candidateOf bs c v) = true
    · rw [if_pos hf] at h
      simp only [Option.some.injEq, Prod.mk.injEq] at h
      obtain ⟨rfl, rfl⟩ := h
      exact ⟨hf, rfl⟩
    · rw [if_neg hf] at h
      cases h

/-- Outcome shape of the batch loop over an arbitrary list of batch
starts. -/
theorem runBatches_shape (n : Nat) (eo : Nat → Option (List String))
    (L : List Nat) :
    ((∃ f cof, runBatches n eo L = Outcome.Found f cof ∧
        isFactor (n : Int) f = true ∧ cof = Int.fdiv (n : Int) f) ∧
      runBatches n eo L ≠ Outcome.NotFound)
    ∨ (runBatches n eo L = Outcome.NotFound ∧
        ∀ bs ∈ L, ∀ ls, eo bs = some ls → ∀ l ∈ ls, processLine n bs l = none) := by
  induction L with
  | nil =>
    right
    refine ⟨rfl, ?_⟩
    intro bs hbs
    cases hbs
  | cons bs rest ih =>
    cases heo : eo bs with
    | none =>
      have hred : runBatches n eo (bs :: rest) = runBatches n eo rest := by
        simp only [runBatches, heo]
      rcases ih with ⟨⟨f, cof, hfound, hv1, hv2⟩, hne⟩ | ⟨hnf, hall⟩
      · left
        exact ⟨⟨f, cof, by rw [hred]; exact hfound, hv1, hv2⟩,
          by rw [hred]; exact hne⟩
      · right
        refine ⟨by rw [hred]; exact hnf, ?_⟩
        intro bs' hmem ls hls
        rcases List.mem_cons.1 hmem with rfl | hmem'
        · rw [heo] at hls
          cases hls
        · exact hall bs' hmem' ls hls
    | some lines =>
      cases hscan : scanLines n bs lines with
      | some r =>
        obtain ⟨f, cof⟩ := r
        have hred : runBatches n eo (bs :: rest) = Outcome.Found f cof := by
          simp only [runBatches, heo, hscan]
        obtain ⟨l, hl, hpl⟩ := scanLines_eq_some_mem n bs lines (f, cof) hscan
        have hv := processLine_found n bs l f cof hpl
        left
        refine ⟨⟨f, cof, hred, hv.1, hv.2⟩, ?_⟩
        rw [hred]
        intro hc
        cases hc
      | none =>
        have hred : runBatches n eo (bs :: rest) = runBatches n eo rest := by
          simp only [runBatches, heo, hscan]
        rcases ih with ⟨⟨f, cof, hfound, hv1, hv2⟩, hne⟩ | ⟨hnf, hall⟩
        · left
          exact ⟨⟨f, cof, by rw [hred]; exact hfound, hv1, hv2⟩,
            by rw [hred]; exact hne⟩
        · right
          refine ⟨by rw [hred]; exact hnf, ?_⟩
          intro bs' hmem ls hls
          rcases List.mem_cons.1 hmem with rfl | hmem'
          · rw [heo] at hls
            injection hls with hls'
            subst hls'
            exact (scanLines_eq_none_iff n bs' lines).1 hscan
          · exact hall bs' hmem' ls hls

set_option maxRecDepth 8000 in
/-- Claim C7 counterexample: the claim fails at `N = 2 ^ 1024` — the driver
produces no user-visible outcome there at all, because converting the
modulus to a double in `math.sqrt` on line 28 raises `OverflowError` before
any batch runs, so neither a factor pair nor `NotFound` is reached. -/
theorem solve_raises_cex :
    solve_distributed (2 ^ 1024) 0 eoEmpty = RunResult.overflowError ∧
      RunResult.overflowError ≠ RunResult.ok Outcome.NotFound := by
  decide

/-- Claim C7 (amended): for every modulus below the double-conversion
overflow bound, whatever limit the float front end produced and however the
engine behaves, the driver finishes with exactly one user-visible outcome —
either a verified pair `(factor, N // factor)` with `isFactor` true, or
`NotFound`, the latter exactly when no finished batch produced a verified
candidate — and parse failures and timeouts never raise; for moduli at or
above the bound the front end raises `OverflowError` instead. -/
theorem solve_outcome_shape_guarded (n lim : Nat)
    (eo : Nat → Option (List String)) (h : n < FLOAT_OVERFLOW_THRESHOLD) :
    ((∃ f cof, solve_distributed n lim eo = RunResult.ok (Outcome.Found f cof) ∧
        isFactor (n : Int) f = true ∧ cof = Int.fdiv (n : Int) f) ∧
      solve_distributed n lim eo ≠ RunResult.ok Outcome.NotFound)
    ∨ (solve_distributed n lim eo = RunResult.ok Outcome.NotFound ∧
        ∀ bs ∈ batchStartsOf lim, ∀ ls, eo bs = some ls →
          ∀ l ∈ ls, processLine n bs l = none) := by
  have hred : solve_distributed n lim eo =
      RunResult.ok (runBatches n eo (batchStartsOf lim)) := by
    unfold solve_distributed
    rw [if_neg (by omega)]
  rcases runBatches_shape n eo (batchStartsOf lim) with
    ⟨⟨f, cof, hf, hv1, hv2⟩, hne⟩ | ⟨hnf, hall⟩
  · left
    refine ⟨⟨f, cof, by rw [hred, hf], hv1, hv2⟩, ?_⟩
    rw [hred]
    intro hc
    injection hc with hc'
    exact hne hc'
  · right
    exact ⟨by rw [hred, hnf], hall⟩

set_option maxRecDepth 8000 in
/-- Witness for the amended claim C7 at `N = 143`, `lim = 12`, with an
engine that finishes every batch with empty output. -/
theorem solve_outcome_shape_guarded_witness :
    ((∃ f cof, solve_distributed 143 12 eoEmpty = RunResult.ok (Outcome.Found f cof) ∧
        isFactor (143 : Int) f = true ∧ cof = Int.fdiv (143 : Int) f) ∧
      solve_distributed 143 12 eoEmpty ≠ RunResult.ok Outcome.NotFound)
    ∨ (solve_distributed 143 12 eoEmpty = RunResult.ok Outcome.NotFound ∧
        ∀ bs ∈ batchStartsOf 12, ∀ ls, eoEmpty bs = some ls →
          ∀ l ∈ ls, processLine 143 bs l = none) :=
  solve_outcome_shape_guarded 143 12 eoEmpty (by decide)

/-- Both effects of one batch are benign: neither removes a file, and the
only write targets the fixed path. -/
theorem batchEffects_spec (n bs : Nat) :
    ∀ e ∈ batchEffects n bs,
      Effect.isRemove e = false ∧
        (Effect.isWrite e = true → Effect.fileName e = some "distributed.qbin") := by
  intro e he
  simp only [batchEffects, List.mem_cons, List.not_mem_nil, or_false] at he
  rcases he with rfl | rfl
  · exact ⟨rfl, fun _ => rfl⟩
  · refine ⟨rfl, ?_⟩
    intro hw
    cases hw

/-- No effect in the batch-loop trace removes a file, and every file write
in it targets the fixed path. -/
theorem runTrace_no_remove (n : Nat) (eo : Nat → Option (List String))
    (L : List Nat) :
    ∀ e ∈ runTrace n eo L,
      Effect.isRemove e = false ∧
        (Effect.isWrite e = true → Effect.fileName e = some "distributed.qbin") := by
  induction L with
  | nil =>
    intro e he
    cases he
  | cons bs rest ih =>
    intro e he
    cases heo : eo bs with
    | none =>
      simp only [runTrace, heo] at he
      rcases List.mem_append.1 he with h | h
      · exact batchEffects_spec n bs e h
      · exact ih e h
    | some lines =>
      cases hscan : scanLines n bs lines with
      | some r =>
        simp only [runTrace, heo, hscan] at he
        rcases List.mem_append.1 he with h | h
        · exact batchEffects_spec n bs e h
        · cases h
      | none =>
        simp only [runTrace, heo, hscan] at he
        rcases List.mem_append.1 he with h | h
        · exact batchEffects_spec n bs e h
        · exact ih e h

/-- Claim C8 counterexample: a full run (modulus 0, engine finishing with
empty output, so the search completes with no factor) writes the program
artifact but its effect trace contains no removal — the artifact survives
the exit path. -/
theorem artifact_not_removed_cex :
    hasWrite (solveEffects 0 eoEmpty) = true ∧
      hasRemove (solveEffects 0 eoEmpty) = false := by
  decide

/-- Claim C8 (amended): every batch serializes the built program to the
fixed path `distributed.qbin` before launching the external engine, and no
exit path of the run removes that artifact; the name is a constant, not a
unique temporary. -/
theorem artifact_fixed_name (n : Nat) (eo : Nat → Option (List String)) :
    (∀ e ∈ solveEffects n eo, Effect.isRemove e = false)
      ∧ (∀ e ∈ solveEffects n eo, Effect.isWrite e = true →
          Effect.fileName e = some "distributed.qbin")
      ∧ ∀ bs, batchEffects n bs =
          [Effect.writeFile "distributed.qbin"
              (buildProgram n bs (active_chunks n bs)),
            Effect.runEngine ["./qutrit_engine", "distributed.qbin"]] :=
  ⟨fun e he => (runTrace_no_remove n eo (batchStarts n) e he).1,
   fun e he => (runTrace_no_remove n eo (batchStarts n) e he).2,
   fun _ => rfl⟩

/-- Witness for the amended claim C8: the artifact write of the run for
modulus 0 with a timing-out engine is in the trace, is not a removal, and
targets the fixed path. -/
theorem artifact_fixed_name_witness :
    Effect.isRemove (Effect.writeFile "distributed.qbin"
        (buildProgram 0 0 (active_chunks 0 0))) = false :=
  (artifact_fixed_name 0 eoTimeout).1 _ (by decide)

end BrainFactor
